import Mathlib

/-!
# Verification of the AIX member-multiplexing dynamic loader
  (Modules/_ctypes/dlfcn_aix.c)

Shallow embedding of the loader in `dlfcn_aix.c`.  Paths and symbol names are
`List Char` (C strings).  Native handles are `Nat`, with `0` playing the role
of the C null pointer.  The native primitives `dlopen` / `dlclose` / `dlsym`
are oracles passed as parameters; `dlsym` additionally threads the ambient
`errno` value (a `Nat`, `0` meaning "no error"), because `multiple_sym` reads
`errno` between probes.  Every operation also returns the trace of native
calls it made, so call-count properties can be stated.
-/

set_option autoImplicit false

namespace DlfcnAix

/-- `EINVAL` as a C `int` return value. -/
def EINVAL : Int := 22

/-- `EINVAL` as an `errno` value. -/
def errnoEINVAL : Nat := 22

/-- AIX `RTLD_MEMBER` open-mode flag (0x00040000). -/
def RTLD_MEMBER : Nat := 262144

/-- Oracle for the native `dlopen`: `(path, mode) ↦ handle`, `0` = failure. -/
abbrev NativeOpen := List Char → Nat → Nat

/-- Oracle for the native `dlclose`: `handle ↦ return code`, `0` = success. -/
abbrev NativeClose := Nat → Int

/-- Oracle for the native `dlsym`: `(handle, symbol, errno) ↦ (address, errno')`.
A returned address `0` is the C null; the oracle may set or leave `errno`. -/
abbrev NativeSym := Nat → List Char → Nat → Nat × Nat

/-- The tagged handle this system returns.  The C source dispatches through an
embedded `Loader` function-pointer table (`SingleObject` / `MultipleObjects`
share the `ObjectBase` prefix); the spec's design notes direct modelling this
as an explicit tagged variant.  A `multiple` payload is the contents of the
`dlhandles` slot array, including the `NULL` (= `0`) terminator slot. -/
inductive LoaderHandle where
  | single (h : Nat)
  | multiple (slots : List Nat)
deriving DecidableEq

/-- A raw pointer value handed to the public facade: the C null pointer, one
of the three reserved sentinels (`RTLD_DEFAULT`, `RTLD_MYSELF`, `RTLD_NEXT`),
or an object produced by this system's own open. -/
inductive CHandle where
  | null
  | rtldDefault
  | rtldMyself
  | rtldNext
  | obj (h : LoaderHandle)
deriving DecidableEq

/-- Result of a close operation: the C return value, the trace of native
`dlclose` calls made (member handles, in order), whether the wrapper's own
memory was freed, whether the code set `errno = EINVAL`, and whether the
call was forwarded raw to the native `dlclose` (facade null/sentinel path). -/
structure CloseOut where
  ret : Int
  closed : List Nat
  freed : Bool
  errnoSet : Bool
  rawForwarded : Bool
deriving DecidableEq

/-- Result of an internal symbol lookup: returned address (`0` = null),
`errno` after the call, and the trace of member handles probed via the
native `dlsym`, in order. -/
structure SymRes where
  addr : Nat
  errnoOut : Nat
  probed : List Nat
deriving DecidableEq

/-- Result of the public `ctypes_dlsym`: as `SymRes`, plus whether the call
was forwarded raw to the native `dlsym` (null/sentinel path). -/
structure DlsymOut where
  addr : Nat
  errnoOut : Nat
  probed : List Nat
  rawForwarded : Bool
deriving DecidableEq

/-- Result of an open: the returned handle (`none` = C `NULL`), the trace of
native `dlopen` calls `(path, mode)` in order, the trace of native `dlclose`
calls made while unwinding a failed multi-member open, and whether a
partially built aggregate was freed during that unwind. -/
structure OpenOut where
  handle : Option LoaderHandle
  opens : List (List Char × Nat)
  closes : List Nat
  freedAggregate : Bool
deriving DecidableEq

/-- `single_close` from the source: close the one wrapped native handle and
free the wrapper unconditionally; a null handle gets `errno = EINVAL` and
returns `EINVAL` without any native call. -/
def single_close (cl : NativeClose) (handle : Option Nat) : CloseOut :=
  match handle with
  | some h => ⟨cl h, [h], true, false, false⟩
  | none => ⟨EINVAL, [], false, true, false⟩

/-- `single_sym` from the source: delegate to the native `dlsym`; a null
handle gets `errno = EINVAL` and returns null without any native call. -/
def single_sym (sym : NativeSym) (handle : Option Nat) (s : List Char) (e : Nat) : SymRes :=
  match handle with
  | some h =>
      let r := sym h s e
      ⟨r.1, r.2, [h]⟩
  | none => ⟨0, errnoEINVAL, []⟩

/-- `single_open` from the source: one native `dlopen`; on success wrap the
handle as a `single` object, on failure free the wrapper and return `NULL`.
(Allocation of the wrapper itself is modelled as always succeeding.) -/
def single_open (op : NativeOpen) (path : List Char) (mode : Nat) : OpenOut :=
  let h := op path mode
  ⟨if h = 0 then none else some (.single h), [(path, mode)], [], false⟩

/-- The `while(*dlhandles)` loop of `multiple_close`: close each slot up to
the first null slot, remembering whether any native close failed.  Returns
the final `ret` value (`0` or `EINVAL`) and the trace of handles closed. -/
def multiple_close_go (cl : NativeClose) : List Nat → Int × List Nat
  | [] => (0, [])
  | h :: rest =>
      if h = 0 then (0, [])
      else
        let r := multiple_close_go cl rest
        (if cl h ≠ 0 then EINVAL else r.1, h :: r.2)

/-- `multiple_close` from the source: close every member up to the null
terminator (continuing past failures), free the aggregate, return `0` iff
every member close succeeded, otherwise set `errno = EINVAL` and return
`EINVAL`.  A null handle gets `errno = EINVAL` / `EINVAL` with no native
call and nothing freed. -/
def multiple_close (cl : NativeClose) (handle : Option (List Nat)) : CloseOut :=
  match handle with
  | some slots =>
      let r := multiple_close_go cl slots
      if r.1 = 0 then ⟨0, r.2, true, false, false⟩
      else ⟨EINVAL, r.2, true, true, false⟩
  | none => ⟨EINVAL, [], false, true, false⟩

/-- The `while(*dlhandles)` loop of `multiple_sym`: probe each slot up to the
first null slot; `if (ret || errno) return ret;` stops at the first probe
that yields a non-null address or leaves `errno` nonzero. -/
def multiple_sym_go (sym : NativeSym) (s : List Char) : List Nat → Nat → SymRes
  | [], e => ⟨0, e, []⟩
  | h :: rest, e =>
      if h = 0 then ⟨0, e, []⟩
      else
        let r := sym h s e
        if r.1 ≠ 0 ∨ r.2 ≠ 0 then ⟨r.1, r.2, [h]⟩
        else
          let rec' := multiple_sym_go sym s rest r.2
          ⟨rec'.addr, rec'.errnoOut, h :: rec'.probed⟩

/-- `multiple_sym` from the source: probe members in open order; a null
handle gets `errno = EINVAL` and returns null without any native call. -/
def multiple_sym (sym : NativeSym) (handle : Option (List Nat)) (s : List Char) (e : Nat) : SymRes :=
  match handle with
  | some slots => multiple_sym_go sym s slots e
  | none => ⟨0, errnoEINVAL, []⟩

/-- The member names `multiple_open`'s loop carves out of the members string
(the text following the opening paren, up to and including the final `)`):
each `,` found by `strchr` ends a member; when no comma remains,
`nextmember` points at the string's final character (the closing paren), so
the last member is the remaining text without its final character. -/
def member_list : List Char → List (List Char)
  | [] => [[]]
  | c :: cs =>
      if c = ',' then [] :: member_list cs
      else
        match cs with
        | [] => [[]]
        | _ :: _ =>
            match member_list cs with
            | s :: ss => (c :: s) :: ss
            | [] => [[c]]

/-- The open loop of `multiple_open`: for each member, rewrite the path
buffer to `pre ++ member ++ ")"` (where `pre` is the filename plus the
opening paren, as `strncpy`/`strcpy` rebuild it in `pathbuf`), call the
native `dlopen`, and stop at the first failure.  Returns the successfully
opened handles in order, the trace of native `dlopen` calls, and whether
every member opened (`members == NULL` at loop exit in the C). -/
def open_members (op : NativeOpen) (pre : List Char) (mode : Nat) :
    List (List Char) → List Nat × List (List Char × Nat) × Bool
  | [] => ([], [], true)
  | m :: rest =>
      let pb := pre ++ m ++ [')']
      let h := op pb mode
      if h = 0 then ([], [(pb, mode)], false)
      else
        let r := open_members op pre mode rest
        (h :: r.1, (pb, mode) :: r.2.1, r.2.2)

/-- `multiple_open` from the source.  `mIdx` is the offset of the members
text within `path` (the C passes the pointer `opening + 1`; `pathbuf` is a
copy of `path` and `memberbuf` the corresponding offset into it).  After a
success at slot `i` the code writes `dlhandles[i+1] = NULL`, and a failed
`dlopen` leaves `NULL` in its own slot, so the written slots are always the
opened handles followed by a null terminator; on failure the partial
aggregate is handed to `multiple_close` and `NULL` is returned.
(`strdup`/`malloc` are modelled as always succeeding.) -/
def multiple_open (op : NativeOpen) (cl : NativeClose) (path : List Char) (mIdx : Nat)
    (mode : Nat) : OpenOut :=
  let pre := path.take mIdx
  let ms := member_list (path.drop mIdx)
  let r := open_members op pre mode ms
  if r.2.2 then ⟨some (.multiple (r.1 ++ [0])), r.2.1, [], false⟩
  else
    let c := multiple_close cl (some (r.1 ++ [0]))
    ⟨none, r.2.1, c.closed, c.freed⟩

/-- Index of the rightmost occurrence of `c` (C `strrchr`). -/
def rfind_idx (c : Char) : List Char → Option Nat
  | [] => none
  | x :: xs =>
      match rfind_idx c xs with
      | some j => some (j + 1)
      | none => if x = c then some 0 else none

/-- `ctypes_dlopen` from the source, for a non-null, non-sentinel path.
`closing && strlen(closing) == 1` for `closing = strrchr(path, ')')` says
exactly that the path is nonempty and its last character is `)`.  The
member-syntax conditions mirror `opening > path`, `strlen(opening) > 2`
and `!strchr(opening, '/')`; when they hold, `RTLD_MEMBER` is ORed into the
mode, and a comma after the opening paren selects `multiple_open`, else the
path falls through unmodified (but with the augmented mode) to
`single_open`. -/
def ctypes_dlopen (op : NativeOpen) (cl : NativeClose) (path : List Char) (mode : Nat) :
    OpenOut :=
  if path.getLast? = some ')' then
    match rfind_idx '(' path with
    | some i =>
        if 0 < i ∧ 2 < path.length - i ∧ '/' ∉ path.drop i then
          if ',' ∈ path.drop i then
            multiple_open op cl path (i + 1) (mode ||| RTLD_MEMBER)
          else
            single_open op path (mode ||| RTLD_MEMBER)
        else single_open op path mode
    | none => single_open op path mode
  else single_open op path mode

/-- `ctypes_dlclose` from the source: null and the three sentinels are
forwarded unchanged to the native `dlclose` (oracle `raw`); anything else is
dispatched through the object's loader table. -/
def ctypes_dlclose (cl : NativeClose) (raw : CHandle → Int) (handle : CHandle) : CloseOut :=
  match handle with
  | .null => ⟨raw .null, [], false, false, true⟩
  | .rtldDefault => ⟨raw .rtldDefault, [], false, false, true⟩
  | .rtldMyself => ⟨raw .rtldMyself, [], false, false, true⟩
  | .rtldNext => ⟨raw .rtldNext, [], false, false, true⟩
  | .obj (.single h) => single_close cl (some h)
  | .obj (.multiple slots) => multiple_close cl (some slots)

/-- `ctypes_dlsym` from the source: null and the three sentinels are
forwarded unchanged to the native `dlsym` (oracle `raw`); anything else is
dispatched through the object's loader table. -/
def ctypes_dlsym (sym : NativeSym) (raw : CHandle → List Char → Nat → Nat × Nat)
    (handle : CHandle) (s : List Char) (e : Nat) : DlsymOut :=
  match handle with
  | .null => let r := raw .null s e; ⟨r.1, r.2, [], true⟩
  | .rtldDefault => let r := raw .rtldDefault s e; ⟨r.1, r.2, [], true⟩
  | .rtldMyself => let r := raw .rtldMyself s e; ⟨r.1, r.2, [], true⟩
  | .rtldNext => let r := raw .rtldNext s e; ⟨r.1, r.2, [], true⟩
  | .obj (.single h) =>
      let r := single_sym sym (some h) s e
      ⟨r.addr, r.errnoOut, r.probed, false⟩
  | .obj (.multiple slots) =>
      let r := multiple_sym sym (some slots) s e
      ⟨r.addr, r.errnoOut, r.probed, false⟩

/-- The member-syntax recognition condition of `ctypes_dlopen`, by itself:
last character `)`, rightmost `(` at a positive index `i` with
`strlen(opening) > 2` and no `/` from the `(` onward. -/
def recognized (path : List Char) : Bool :=
  decide (path.getLast? = some ')') &&
    match rfind_idx '(' path with
    | some i => decide (0 < i ∧ 2 < path.length - i ∧ '/' ∉ path.drop i)
    | none => false

/-- Split on every comma (the segments of a member-list text). -/
def comma_segments : List Char → List (List Char)
  | [] => [[]]
  | c :: cs =>
      if c = ',' then [] :: comma_segments cs
      else
        match comma_segments cs with
        | s :: ss => (c :: s) :: ss
        | [] => [[c]]

/-- The recognition condition as claim C6 words it (for comparison with
`recognized`): last character `)`, rightmost `(` at a non-zero index, *at
least one non-empty member segment* between the parentheses, and no path
separator between the parentheses. -/
def spec_recognized (path : List Char) : Bool :=
  decide (path.getLast? = some ')') &&
    match rfind_idx '(' path with
    | some i =>
        let content := (path.drop (i + 1)).dropLast
        decide (0 < i) && (comma_segments content).any (fun s => decide (s ≠ []))
          && decide ('/' ∉ content)
    | none => false

/-- The members text `filename(m1,...,mN)` carries between the parentheses:
the member names joined by commas. -/
def members_str : List (List Char) → List Char
  | [] => []
  | [m] => m
  | m :: ms => m ++ ',' :: members_str ms

/-! ## Helper lemmas -/

/-- When every member open succeeds, the open loop opens each member in list
order: the handles and the native-open trace are the per-member images. -/
theorem open_members_success (op : NativeOpen) (pre : List Char) (mode : Nat)
    (ms : List (List Char)) (hok : ∀ m ∈ ms, op (pre ++ m ++ [')']) mode ≠ 0) :
    open_members op pre mode ms =
      (ms.map fun m => op (pre ++ m ++ [')']) mode,
       ms.map (fun m => (pre ++ m ++ [')'], mode)), true) := by
  induction ms with
  | nil => rfl
  | cons m rest ih =>
      have hm : ¬op (pre ++ (m ++ [')'])) mode = 0 := by simpa using hok m (by simp)
      have hrest : ∀ m' ∈ rest, op (pre ++ m' ++ [')']) mode ≠ 0 := fun m' hm' =>
        hok m' (by simp [hm'])
      simp [open_members, hm, ih hrest]

/-- When the open of `bad` fails after every member of `good` succeeded, the
open loop stops at `bad`: the handles are those of `good`, the native-open
trace covers `good` and the failing `bad` only, and the success flag is
false; the members of `rest` are never attempted. -/
theorem open_members_fail (op : NativeOpen) (pre : List Char) (mode : Nat)
    (good : List (List Char)) (bad : List Char) (rest : List (List Char))
    (hg : ∀ m ∈ good, op (pre ++ m ++ [')']) mode ≠ 0)
    (hb : op (pre ++ bad ++ [')']) mode = 0) :
    open_members op pre mode (good ++ bad :: rest) =
      (good.map fun m => op (pre ++ m ++ [')']) mode,
       (good ++ [bad]).map (fun m => (pre ++ m ++ [')'], mode)), false) := by
  induction good with
  | nil =>
      have hb' : op (pre ++ (bad ++ [')'])) mode = 0 := by simpa using hb
      simp [open_members, hb']
  | cons g gs ih =>
      have hgood : ¬op (pre ++ (g ++ [')'])) mode = 0 := by simpa using hg g (by simp)
      have hgs : ∀ m ∈ gs, op (pre ++ m ++ [')']) mode ≠ 0 := fun m hm => hg m (by simp [hm])
      simp [open_members, hgood, ih hgs]

/-- One step of the close loop on a nonzero head slot. -/
theorem multiple_close_go_cons (cl : NativeClose) (h : Nat) (rest : List Nat)
    (hh : h ≠ 0) :
    multiple_close_go cl (h :: rest) =
      (if cl h ≠ 0 then EINVAL else (multiple_close_go cl rest).1,
        h :: (multiple_close_go cl rest).2) := by
  simp [multiple_close_go, hh]

/-- The close loop on a null-terminated slot list of nonzero handles closes
exactly those handles in order, and yields `0` iff every native close
succeeded. -/
theorem multiple_close_go_spec (cl : NativeClose) (hs : List Nat)
    (h0 : ∀ h ∈ hs, h ≠ 0) :
    multiple_close_go cl (hs ++ [0]) =
      (if ∀ h ∈ hs, cl h = 0 then 0 else EINVAL, hs) := by
  induction hs with
  | nil => simp [multiple_close_go]
  | cons h hs ih =>
      have hh : h ≠ 0 := h0 h (by simp)
      have h0' : ∀ x ∈ hs, x ≠ 0 := fun x hx => h0 x (by simp [hx])
      rw [List.cons_append, multiple_close_go_cons cl h (hs ++ [0]) hh, ih h0']
      by_cases hch : cl h = 0
      · simp [hch, List.forall_mem_cons]
      · simp [hch, List.forall_mem_cons, EINVAL]

/-- `multiple_close` on a well-formed aggregate: every member handle is
closed once in order, the aggregate is freed, and the call reports `EINVAL`
iff some member close failed (setting `errno` exactly then). -/
theorem multiple_close_spec (cl : NativeClose) (hs : List Nat)
    (h0 : ∀ h ∈ hs, h ≠ 0) :
    multiple_close cl (some (hs ++ [0])) =
      if ∀ h ∈ hs, cl h = 0 then ⟨0, hs, true, false, false⟩
      else ⟨EINVAL, hs, true, true, false⟩ := by
  by_cases hall : ∀ h ∈ hs, cl h = 0
  · have hgo : multiple_close_go cl (hs ++ [0]) = (0, hs) := by
      rw [multiple_close_go_spec cl hs h0, if_pos hall]
    rw [if_pos hall]
    simp [multiple_close, hgo]
  · have hgo : multiple_close_go cl (hs ++ [0]) = (EINVAL, hs) := by
      rw [multiple_close_go_spec cl hs h0, if_neg hall]
    rw [if_neg hall]
    simp [multiple_close, hgo, EINVAL]

/-- A probe that yields a non-null address or a nonzero `errno` ends the
lookup loop at once: only that member is probed, and its result is
returned as is. -/
theorem multiple_sym_go_stop (sym : NativeSym) (s : List Char) (h : Nat)
    (rest : List Nat) (e : Nat) (hh : h ≠ 0)
    (hstop : (sym h s e).1 ≠ 0 ∨ (sym h s e).2 ≠ 0) :
    multiple_sym_go sym s (h :: rest) e = ⟨(sym h s e).1, (sym h s e).2, [h]⟩ := by
  simp [multiple_sym_go, hh, hstop]

/-- When every probe yields null and leaves `errno` at `0`, the lookup loop
walks the whole slot list up to the terminator and reports "not found". -/
theorem multiple_sym_go_all_null (sym : NativeSym) (s : List Char) (hs : List Nat)
    (h0 : ∀ h ∈ hs, h ≠ 0) (hnull : ∀ h ∈ hs, sym h s 0 = (0, 0)) :
    multiple_sym_go sym s (hs ++ [0]) 0 = ⟨0, 0, hs⟩ := by
  induction hs with
  | nil => simp [multiple_sym_go]
  | cons h hs ih =>
      have hh : h ≠ 0 := h0 h (by simp)
      have hn : sym h s 0 = (0, 0) := hnull h (by simp)
      have h0' : ∀ x ∈ hs, x ≠ 0 := fun x hx => h0 x (by simp [hx])
      have hn' : ∀ x ∈ hs, sym x s 0 = (0, 0) := fun x hx => hnull x (by simp [hx])
      simp [multiple_sym_go, hh, hn, ih h0' hn']

/-- Step equation of `member_list`: a comma starts a fresh (empty) member. -/
theorem member_list_comma (cs : List Char) :
    member_list (',' :: cs) = [] :: member_list cs := by
  simp [member_list]

/-- Step equation of `member_list`: a non-comma character with a nonempty
tail is prepended to the first member the tail yields. -/
theorem member_list_cons (c : Char) (cs : List Char) (hc : c ≠ ',') (hcs : cs ≠ []) :
    member_list (c :: cs) =
      match member_list cs with
      | s :: ss => (c :: s) :: ss
      | [] => [[c]] := by
  cases cs with
  | nil => exact absurd rfl hcs
  | cons b cs' => simp [member_list, hc]

/-- Splitting off a comma-free head member. -/
theorem member_list_append_comma (m r : List Char) (hm : ',' ∉ m) :
    member_list (m ++ ',' :: r) = m :: member_list r := by
  induction m with
  | nil => simp [member_list]
  | cons a m ih =>
      have ha : a ≠ ',' := by rintro rfl; exact hm (by simp)
      have hm' : ',' ∉ m := fun hmem => hm (by simp [hmem])
      rw [List.cons_append, member_list_cons a (m ++ ',' :: r) ha (by simp), ih hm']

/-- A comma-free final member: the loop takes the remaining text without its
last character (the closing paren `nextmember` points at). -/
theorem member_list_last (m : List Char) (c : Char) (hm : ',' ∉ m) (hc : c ≠ ',') :
    member_list (m ++ [c]) = [m] := by
  induction m with
  | nil => simp [member_list, hc]
  | cons a m ih =>
      have ha : a ≠ ',' := by rintro rfl; exact hm (by simp)
      have hm' : ',' ∉ m := fun hmem => hm (by simp [hmem])
      rw [List.cons_append, member_list_cons a (m ++ [c]) ha (by simp), ih hm']

/-- The members text built from a nonempty list of comma-free member names
parses back to exactly that list. -/
theorem member_list_members_str (ms : List (List Char)) (hne : ms ≠ [])
    (hcm : ∀ m ∈ ms, ',' ∉ m) :
    member_list (members_str ms ++ [')']) = ms := by
  induction ms with
  | nil => exact absurd rfl hne
  | cons m ms ih =>
      cases ms with
      | nil =>
          have hm : ',' ∉ m := hcm m (by simp)
          simpa [members_str] using member_list_last m ')' hm (by decide)
      | cons m' ms' =>
          have hm : ',' ∉ m := hcm m (by simp)
          have hcm' : ∀ x ∈ m' :: ms', ',' ∉ x := fun x hx => hcm x (by simp [hx])
          have : members_str (m :: m' :: ms') = m ++ ',' :: members_str (m' :: ms') := rfl
          rw [this, List.append_assoc, List.cons_append,
            member_list_append_comma m _ hm, ih (by simp) hcm']

/-- `rfind_idx` finds nothing exactly on lists not containing the character
(C `strrchr` returning `NULL`). -/
theorem rfind_idx_eq_none_iff {c : Char} {xs : List Char} :
    rfind_idx c xs = none ↔ c ∉ xs := by
  induction xs with
  | nil => simp [rfind_idx]
  | cons x xs ih =>
      simp only [rfind_idx]
      cases hr : rfind_idx c xs with
      | some j =>
          have : c ∈ xs := by
            by_contra hmem
            exact absurd (ih.mpr hmem) (by simp [hr])
          simp [this]
      | none =>
          have hnot : c ∉ xs := ih.mp hr
          by_cases hx : x = c <;> simp [hx, hnot, Ne.symm]

/-- Computing `rfind_idx` on a decomposition whose suffix avoids the
character: the rightmost occurrence is the explicit one. -/
theorem rfind_idx_append (c : Char) (pre suf : List Char) (h : c ∉ suf) :
    rfind_idx c (pre ++ c :: suf) = some pre.length := by
  induction pre with
  | nil => simp [rfind_idx, rfind_idx_eq_none_iff.mpr h]
  | cons x pre ih => simp [rfind_idx, ih]

/-- Any successful `rfind_idx` yields a decomposition: the character sits at
the reported index and nowhere later. -/
theorem rfind_idx_some (c : Char) (xs : List Char) (i : Nat)
    (h : rfind_idx c xs = some i) :
    ∃ pre suf, xs = pre ++ c :: suf ∧ pre.length = i ∧ c ∉ suf := by
  induction xs generalizing i with
  | nil => simp [rfind_idx] at h
  | cons x xs ih =>
      simp only [rfind_idx] at h
      cases hr : rfind_idx c xs with
      | some j =>
          rw [hr] at h
          have hji : j + 1 = i := by simpa using h
          obtain ⟨pre, suf, hxs, hlen, hns⟩ := ih j hr
          refine ⟨x :: pre, suf, by simp [hxs], ?_, hns⟩
          simp only [List.length_cons, hlen, hji]
      | none =>
          rw [hr] at h
          by_cases hx : x = c
          · subst hx
            simp only [if_pos rfl, Option.some.injEq] at h
            exact ⟨[], xs, rfl, by simpa using h, rfind_idx_eq_none_iff.mp hr⟩
          · simp [hx] at h

/-- `ctypes_dlopen` on a path decomposed as `fname(content)` — with a
nonempty filename, nonempty content, and neither a `(` nor a `/` in the
content, so the rightmost `(` is the decomposition's one — ORs
`RTLD_MEMBER` into the mode and dispatches on whether the content holds a
comma: `multiple_open` for several members, `single_open` with the path
unchanged for one. -/
theorem ctypes_dlopen_member (op : NativeOpen) (cl : NativeClose)
    (fname content : List Char) (mode : Nat) (hf : fname ≠ []) (hc : content ≠ [])
    (hcp : '(' ∉ content) (hcs : '/' ∉ content) :
    ctypes_dlopen op cl (fname ++ '(' :: content ++ [')']) mode =
      if ',' ∈ content then
        multiple_open op cl (fname ++ '(' :: content ++ [')']) (fname.length + 1)
          (mode ||| RTLD_MEMBER)
      else single_open op (fname ++ '(' :: content ++ [')']) (mode ||| RTLD_MEMBER) := by
  have hassoc : fname ++ '(' :: content ++ [')'] = fname ++ '(' :: (content ++ [')']) := by
    simp
  rw [hassoc]
  have hlast : (fname ++ '(' :: (content ++ [')'])).getLast? = some ')' := by
    rw [show fname ++ '(' :: (content ++ [')']) = (fname ++ '(' :: content) ++ [')'] by simp]
    exact List.getLast?_concat _
  have hrf : rfind_idx '(' (fname ++ '(' :: (content ++ [')'])) = some fname.length := by
    refine rfind_idx_append '(' fname (content ++ [')']) ?_
    simp only [List.mem_append, List.mem_singleton]
    rintro (h | h)
    · exact hcp h
    · exact absurd h (by decide)
  have hdrop : (fname ++ '(' :: (content ++ [')'])).drop fname.length =
      '(' :: (content ++ [')']) := List.drop_left fname ('(' :: (content ++ [')']))
  have hlen : (fname ++ '(' :: (content ++ [')'])).length =
      fname.length + content.length + 2 := by
    simp [List.length_append]
    omega
  have hcond : 0 < fname.length ∧
      2 < (fname ++ '(' :: (content ++ [')'])).length - fname.length ∧
      '/' ∉ (fname ++ '(' :: (content ++ [')'])).drop fname.length := by
    refine ⟨List.length_pos.mpr hf, ?_, ?_⟩
    · have : 0 < content.length := List.length_pos.mpr hc
      omega
    · rw [hdrop]
      simp only [List.mem_cons, List.mem_append, List.mem_singleton]
      rintro (h | h | h)
      · exact absurd h (by decide)
      · exact hcs h
      · exact absurd h (by decide)
  have hmem : (',' ∈ (fname ++ '(' :: (content ++ [')'])).drop fname.length) ↔
      (',' ∈ content) := by
    rw [hdrop]; simp
  unfold ctypes_dlopen
  rw [if_pos hlast, hrf]
  show (if 0 < fname.length ∧
        2 < (fname ++ '(' :: (content ++ [')'])).length - fname.length ∧
        '/' ∉ (fname ++ '(' :: (content ++ [')'])).drop fname.length then
      if ',' ∈ (fname ++ '(' :: (content ++ [')'])).drop fname.length then
        multiple_open op cl (fname ++ '(' :: (content ++ [')'])) (fname.length + 1)
          (mode ||| RTLD_MEMBER)
      else single_open op (fname ++ '(' :: (content ++ [')'])) (mode ||| RTLD_MEMBER)
    else single_open op (fname ++ '(' :: (content ++ [')'])) mode) = _
  rw [if_pos hcond]
  by_cases hcm : ',' ∈ content
  · rw [if_pos (hmem.mpr hcm), if_pos hcm]
  · rw [if_neg (fun hx => hcm (hmem.mp hx)), if_neg hcm]

/-- `multiple_open` on the path `fname(m1,...,mN)` with the member offset
pointing right after the paren: the path buffer prefix is `fname(`, and the
loop runs over exactly the listed members. -/
theorem multiple_open_composed (op : NativeOpen) (cl : NativeClose)
    (fname : List Char) (ms : List (List Char)) (mode : Nat)
    (hne : ms ≠ []) (hcm : ∀ m ∈ ms, ',' ∉ m) :
    multiple_open op cl (fname ++ '(' :: members_str ms ++ [')'])
      (fname.length + 1) mode =
      (let r := open_members op (fname ++ ['(']) mode ms
       if r.2.2 then ⟨some (.multiple (r.1 ++ [0])), r.2.1, [], false⟩
       else
         let c := multiple_close cl (some (r.1 ++ [0]))
         ⟨none, r.2.1, c.closed, c.freed⟩) := by
  have hsplit : fname ++ '(' :: members_str ms ++ [')'] =
      (fname ++ ['(']) ++ (members_str ms ++ [')']) := by simp
  have hlen : (fname ++ ['(']).length = fname.length + 1 := by simp
  have htake : (fname ++ '(' :: members_str ms ++ [')']).take (fname.length + 1) =
      fname ++ ['('] := by
    rw [hsplit, ← hlen, List.take_left]
  have hdrop : (fname ++ '(' :: members_str ms ++ [')']).drop (fname.length + 1) =
      members_str ms ++ [')'] := by
    rw [hsplit, ← hlen, List.drop_left]
  unfold multiple_open
  rw [htake, hdrop, member_list_members_str ms hne hcm]

/-- A character other than the comma is in the joined members text only if
it is in one of the members. -/
theorem mem_members_str (c : Char) (ms : List (List Char)) (hc : c ≠ ',')
    (h : ∀ m ∈ ms, c ∉ m) : c ∉ members_str ms := by
  induction ms with
  | nil => simp [members_str]
  | cons m ms ih =>
      cases ms with
      | nil => simpa [members_str] using h m (by simp)
      | cons m' ms' =>
          have h1 : c ∉ m := h m (by simp)
          have h2 : c ∉ members_str (m' :: ms') := ih fun x hx => h x (by simp [hx])
          have heq : members_str (m :: m' :: ms') = m ++ ',' :: members_str (m' :: ms') := rfl
          rw [heq]
          simp only [List.mem_append, List.mem_cons]
          rintro (hx | hx | hx)
          · exact h1 hx
          · exact hc hx
          · exact h2 hx

/-- Two or more members always put a comma into the joined members text. -/
theorem comma_mem_members_str (m m' : List Char) (ms : List (List Char)) :
    ',' ∈ members_str (m :: m' :: ms) := by
  have heq : members_str (m :: m' :: ms) = m ++ ',' :: members_str (m' :: ms) := rfl
  rw [heq]; simp

/-- `multiple_close` on a well-formed aggregate closes exactly the member
handles, whatever the native close results are. -/
theorem multiple_close_closed (cl : NativeClose) (hs : List Nat)
    (h0 : ∀ h ∈ hs, h ≠ 0) :
    (multiple_close cl (some (hs ++ [0]))).closed = hs := by
  rw [multiple_close_spec cl hs h0]
  by_cases hall : ∀ h ∈ hs, cl h = 0
  · rw [if_pos hall]
  · rw [if_neg hall]

/-- `multiple_close` on a well-formed aggregate always frees the aggregate,
whatever the native close results are. -/
theorem multiple_close_freed (cl : NativeClose) (hs : List Nat)
    (h0 : ∀ h ∈ hs, h ≠ 0) :
    (multiple_close cl (some (hs ++ [0]))).freed = true := by
  rw [multiple_close_spec cl hs h0]
  by_cases hall : ∀ h ∈ hs, cl h = 0
  · rw [if_pos hall]
  · rw [if_neg hall]

/-- On a decomposed member path, the recognition condition evaluates to
true. -/
theorem recognized_composed (fname content : List Char) (hf : fname ≠ [])
    (hc : content ≠ []) (hcp : '(' ∉ content) (hcs : '/' ∉ content) :
    recognized (fname ++ '(' :: content ++ [')']) = true := by
  have hassoc : fname ++ '(' :: content ++ [')'] = fname ++ '(' :: (content ++ [')']) := by
    simp
  rw [hassoc]
  have hlast : (fname ++ '(' :: (content ++ [')'])).getLast? = some ')' := by
    rw [show fname ++ '(' :: (content ++ [')']) = (fname ++ '(' :: content) ++ [')'] by simp]
    exact List.getLast?_concat _
  have hrf : rfind_idx '(' (fname ++ '(' :: (content ++ [')'])) = some fname.length := by
    refine rfind_idx_append '(' fname (content ++ [')']) ?_
    simp only [List.mem_append, List.mem_singleton]
    rintro (h | h)
    · exact hcp h
    · exact absurd h (by decide)
  have hdrop : (fname ++ '(' :: (content ++ [')'])).drop fname.length =
      '(' :: (content ++ [')']) := List.drop_left fname ('(' :: (content ++ [')']))
  have hcond : 0 < fname.length ∧
      2 < (fname ++ '(' :: (content ++ [')'])).length - fname.length ∧
      '/' ∉ (fname ++ '(' :: (content ++ [')'])).drop fname.length := by
    refine ⟨List.length_pos.mpr hf, ?_, ?_⟩
    · have h1 : 0 < content.length := List.length_pos.mpr hc
      have h2 : (fname ++ '(' :: (content ++ [')'])).length =
          fname.length + content.length + 2 := by
        simp [List.length_append]
        omega
      omega
    · rw [hdrop]
      simp only [List.mem_cons, List.mem_append, List.mem_singleton]
      rintro (h | h | h)
      · exact absurd h (by decide)
      · exact hcs h
      · exact absurd h (by decide)
  unfold recognized
  rw [hrf]
  show (decide ((fname ++ '(' :: (content ++ [')'])).getLast? = some ')') &&
    decide (0 < fname.length ∧
      2 < (fname ++ '(' :: (content ++ [')'])).length - fname.length ∧
      '/' ∉ (fname ++ '(' :: (content ++ [')'])).drop fname.length)) = true
  rw [decide_eq_true hlast, Bool.true_and]
  exact decide_eq_true hcond

/-! ## Claim theorems -/

/-- C3: aggregate symbol lookup probes members in open order and returns the
first non-null address immediately, never probing a later member after a
match; in particular, for ordered members `[A, B]` where A's native lookup
yields null with no error and B's yields address `X ≠ 0`, the aggregate
lookup returns `X`, having probed exactly A then B. -/
theorem C3_first_match_wins (sym : NativeSym) (s : List Char) :
    (∀ (h : Nat) (rest : List Nat) (e : Nat), h ≠ 0 → (sym h s e).1 ≠ 0 →
      multiple_sym sym (some (h :: rest)) s e = ⟨(sym h s e).1, (sym h s e).2, [h]⟩) ∧
    (∀ (A B X eB : Nat), A ≠ 0 → B ≠ 0 → sym A s 0 = (0, 0) → sym B s 0 = (X, eB) →
      X ≠ 0 → multiple_sym sym (some [A, B, 0]) s 0 = ⟨X, eB, [A, B]⟩) := by
  constructor
  · intro h rest e hh ha
    exact multiple_sym_go_stop sym s h rest e hh (Or.inl ha)
  · intro A B X eB hA hB hsymA hsymB hX
    simp [multiple_sym, multiple_sym_go, hA, hB, hsymA, hsymB, hX]

/-- C3 witness: with members `[2, 3]` where member 2 resolves to null with
no error and member 3 to address 9, the aggregate lookup returns 9 having
probed 2 then 3. -/
theorem C3_first_match_wins_witness :
    multiple_sym (fun h _ e => if h = 3 then (9, e) else (0, e)) (some [2, 3, 0])
      (String.toList "s") 0 = ⟨9, 0, [2, 3]⟩ :=
  (C3_first_match_wins (fun h _ e => if h = 3 then (9, e) else (0, e))
    (String.toList "s")).2 2 3 9 0 (by decide) (by decide) rfl rfl (by decide)

/-- C4: if a member's native lookup yields null with the error indicator
(`errno`) set, the aggregate lookup stops at that member and returns its
null/error result; no later member is probed, whatever the remaining
members would have resolved. -/
theorem C4_error_stops_probe (sym : NativeSym) (s : List Char) (h : Nat)
    (rest : List Nat) (e : Nat) (hh : h ≠ 0) (haddr : (sym h s e).1 = 0)
    (herr : (sym h s e).2 ≠ 0) :
    multiple_sym sym (some (h :: rest)) s e = ⟨0, (sym h s e).2, [h]⟩ := by
  have hstop := multiple_sym_go_stop sym s h rest e hh (Or.inr herr)
  rw [haddr] at hstop
  exact hstop

/-- C4 witness: member 2 yields null with `errno = 5`; member 3 would have
resolved the symbol to 77 but is never probed: the lookup returns the
null/error result after probing only member 2. -/
theorem C4_error_stops_probe_witness :
    multiple_sym (fun h _ e => if h = 2 then (0, 5) else (77, e)) (some [2, 3, 0])
      (String.toList "s") 0 = ⟨0, 5, [2]⟩ := by
  have := C4_error_stops_probe (fun h _ e => if h = 2 then (0, 5) else (77, e))
    (String.toList "s") 2 [3, 0] 0 (by decide) rfl (by decide)
  simpa using this

/-- C10: the lookup's error indicator is the ambient `errno`, never cleared
before or between probes: if `errno` is nonzero when the lookup begins and
the first member's native lookup returns null leaving `errno` alone, the
lookup returns null at once without probing any later member. -/
theorem C10_ambient_errno_stops_lookup (sym : NativeSym) (s : List Char) (h : Nat)
    (rest : List Nat) (e : Nat) (he : e ≠ 0) (hh : h ≠ 0) (hsym : sym h s e = (0, e)) :
    multiple_sym sym (some (h :: rest)) s e = ⟨0, e, [h]⟩ := by
  have hstop := multiple_sym_go_stop sym s h rest e hh (by rw [hsym]; exact Or.inr he)
  rw [hsym] at hstop
  exact hstop

/-- C10 witness: with a stale `errno = 7` on entry, member 2's null probe
ends the lookup even though member 3 would have resolved the symbol. -/
theorem C10_ambient_errno_stops_lookup_witness :
    multiple_sym (fun h _ e => if h = 3 then (9, e) else (0, e)) (some [2, 3, 0])
      (String.toList "s") 7 = ⟨0, 7, [2]⟩ :=
  C10_ambient_errno_stops_lookup (fun h _ e => if h = 3 then (9, e) else (0, e))
    (String.toList "s") 2 [3, 0] 7 (by decide) (by decide) rfl

/-- C5: aggregate close attempts the native close of every member in order,
continuing past individual failures; it frees the aggregate's own memory,
and reports success (`0`) iff every member close succeeded, failure
(`EINVAL`) iff at least one failed. -/
theorem C5_aggregate_close (cl : NativeClose) (hs : List Nat)
    (h0 : ∀ h ∈ hs, h ≠ 0) :
    (multiple_close cl (some (hs ++ [0]))).closed = hs ∧
    (multiple_close cl (some (hs ++ [0]))).freed = true ∧
    ((multiple_close cl (some (hs ++ [0]))).ret = 0 ↔ ∀ h ∈ hs, cl h = 0) ∧
    ((multiple_close cl (some (hs ++ [0]))).ret = EINVAL ↔ ∃ h ∈ hs, cl h ≠ 0) := by
  refine ⟨multiple_close_closed cl hs h0, multiple_close_freed cl hs h0, ?_, ?_⟩ <;>
    rw [multiple_close_spec cl hs h0] <;> by_cases hall : ∀ h ∈ hs, cl h = 0
  · rw [if_pos hall]; simpa using hall
  · rw [if_neg hall]; simpa [EINVAL] using hall
  · rw [if_pos hall]
    simp only [EINVAL]
    constructor
    · intro hc; exact absurd hc (by decide)
    · rintro ⟨h, hh, hc⟩; exact absurd (hall h hh) hc
  · rw [if_neg hall]
    simp only [EINVAL, true_iff, iff_true]
    push_neg at hall
    obtain ⟨h, hh, hc⟩ := hall
    exact ⟨h, hh, hc⟩

/-- C5 witness: members `[4, 5]` where closing 5 fails: both are closed in
order, the aggregate is freed, and the overall result is `EINVAL`. -/
theorem C5_aggregate_close_witness :
    (multiple_close (fun h => if h = 5 then 1 else 0) (some ([4, 5] ++ [0]))).closed
        = [4, 5] ∧
    (multiple_close (fun h => if h = 5 then 1 else 0) (some ([4, 5] ++ [0]))).freed
        = true ∧
    ((multiple_close (fun h => if h = 5 then 1 else 0) (some ([4, 5] ++ [0]))).ret = 0 ↔
      ∀ h ∈ [4, 5], (if h = 5 then (1 : Int) else 0) = 0) ∧
    ((multiple_close (fun h => if h = 5 then 1 else 0) (some ([4, 5] ++ [0]))).ret = EINVAL ↔
      ∃ h ∈ [4, 5], (if h = 5 then (1 : Int) else 0) ≠ 0) :=
  C5_aggregate_close (fun h => if h = 5 then 1 else 0) [4, 5] (by decide)

/-- C7: a path whose last character is not `)` (no parentheses at all, or
parentheses not ending the string) is dispatched to a single native open
that receives the path completely unmodified, with the caller's mode and
without the member-mode flag. -/
theorem C7_literal_path (op : NativeOpen) (cl : NativeClose) (path : List Char)
    (mode : Nat) (h : path.getLast? ≠ some ')') :
    ctypes_dlopen op cl path mode = single_open op path mode ∧
    (single_open op path mode).opens = [(path, mode)] := by
  constructor
  · unfold ctypes_dlopen
    rw [if_neg h]
  · rfl

/-- C7 witness: `"libc.so"` with mode 2 goes through `single_open`
unmodified. -/
theorem C7_literal_path_witness :
    ctypes_dlopen (fun _ _ => 4) (fun _ => 0) (String.toList "libc.so") 2 =
      single_open (fun _ _ => 4) (String.toList "libc.so") 2 ∧
    (single_open (fun _ _ => 4) (String.toList "libc.so") 2).opens =
      [(String.toList "libc.so", 2)] :=
  C7_literal_path (fun _ _ => 4) (fun _ => 0) (String.toList "libc.so") 2 (by decide)

/-- C8 counterexample: a null handle passed to the public close is *not*
rejected by this code as an invalid-argument failure: it is forwarded raw
to the native `dlclose`, so with a native close returning 0 on it the call
reports success and sets no `errno`. -/
theorem C8_counterexample :
    (ctypes_dlclose (fun _ => 1) (fun _ => 0) CHandle.null).ret = 0 ∧
    (ctypes_dlclose (fun _ => 1) (fun _ => 0) CHandle.null).rawForwarded = true ∧
    (ctypes_dlclose (fun _ => 1) (fun _ => 0) CHandle.null).errnoSet = false := by
  decide

/-- C8 amended: a null handle is never dereferenced: the public facade
forwards it unchanged (like a sentinel) to the native close/lookup and
returns whatever that native call returns, while the internal single- and
multi-member close and lookup operations reject a null object immediately
with `EINVAL` and make no native call. -/
theorem C8_null_handle_behavior (cl : NativeClose) (raw : CHandle → Int)
    (sym : NativeSym) (rawS : CHandle → List Char → Nat → Nat × Nat)
    (s : List Char) (e : Nat) :
    ctypes_dlclose cl raw CHandle.null = ⟨raw CHandle.null, [], false, false, true⟩ ∧
    ctypes_dlsym sym rawS CHandle.null s e =
      ⟨(rawS CHandle.null s e).1, (rawS CHandle.null s e).2, [], true⟩ ∧
    multiple_close cl none = ⟨EINVAL, [], false, true, false⟩ ∧
    single_close cl none = ⟨EINVAL, [], false, true, false⟩ ∧
    multiple_sym sym none s e = ⟨0, errnoEINVAL, []⟩ ∧
    single_sym sym none s e = ⟨0, errnoEINVAL, []⟩ :=
  ⟨rfl, rfl, rfl, rfl, rfl, rfl⟩

/-- C1: in a multi-member open where the open of member `bad` fails after
the members of `good` opened successfully, each of the earlier native
handles is closed exactly once (the native close trace is exactly the list
of handles opened in this attempt, in order), the partially built aggregate
is freed, no handle is returned, and no further member is attempted. -/
theorem C1_partial_open_unwind (op : NativeOpen) (cl : NativeClose) (fname : List Char)
    (good : List (List Char)) (bad : List Char) (rest : List (List Char)) (mode : Nat)
    (hgc : ∀ m ∈ good, ',' ∉ m) (hbc : ',' ∉ bad) (hrc : ∀ m ∈ rest, ',' ∉ m)
    (hg : ∀ m ∈ good, op (fname ++ '(' :: m ++ [')']) mode ≠ 0)
    (hb : op (fname ++ '(' :: bad ++ [')']) mode = 0) :
    multiple_open op cl (fname ++ '(' :: members_str (good ++ bad :: rest) ++ [')'])
        (fname.length + 1) mode =
      ⟨none, (good ++ [bad]).map (fun m => (fname ++ '(' :: m ++ [')'], mode)),
        good.map (fun m => op (fname ++ '(' :: m ++ [')']) mode), true⟩ := by
  have hcm : ∀ m ∈ good ++ bad :: rest, ',' ∉ m := by
    intro m hm
    rcases List.mem_append.mp hm with h | h
    · exact hgc m h
    · rcases List.mem_cons.mp h with rfl | h
      · exact hbc
      · exact hrc m h
  have hg' : ∀ m ∈ good, op ((fname ++ ['(']) ++ m ++ [')']) mode ≠ 0 := by
    intro m hm
    have := hg m hm
    simpa using this
  have hb' : op ((fname ++ ['(']) ++ bad ++ [')']) mode = 0 := by simpa using hb
  have h0 : ∀ h ∈ good.map (fun m => op ((fname ++ ['(']) ++ m ++ [')']) mode), h ≠ 0 := by
    intro h hh
    rcases List.mem_map.mp hh with ⟨m, hm, rfl⟩
    exact hg' m hm
  have hopen := open_members_fail op (fname ++ ['(']) mode good bad rest hg' hb'
  rw [multiple_open_composed op cl fname (good ++ bad :: rest) mode (by simp) hcm, hopen]
  show (⟨none,
      (good ++ [bad]).map (fun m => ((fname ++ ['(']) ++ m ++ [')'], mode)),
      (multiple_close cl
        (some ((good.map fun m => op ((fname ++ ['(']) ++ m ++ [')']) mode) ++ [0]))).closed,
      (multiple_close cl
        (some ((good.map fun m => op ((fname ++ ['(']) ++ m ++ [')']) mode) ++ [0]))).freed⟩
      : OpenOut) = _
  rw [multiple_close_closed cl _ h0, multiple_close_freed cl _ h0]
  simp

/-- C1 witness: opening `"a(x,y)"` where `"a(x)"` opens as handle 7 and
`"a(y)"` fails: the result is no handle, the two native opens `"a(x)"`,
`"a(y)"`, the single native close of handle 7, and a freed aggregate. -/
theorem C1_partial_open_unwind_witness :
    multiple_open (fun p _ => if p = String.toList "a(x)" then 7 else 0) (fun _ => 0)
        (String.toList "a" ++ '(' :: members_str [String.toList "x", String.toList "y"]
          ++ [')'])
        ((String.toList "a").length + 1) 0 =
      ⟨none, [(String.toList "a(x)", 0), (String.toList "a(y)", 0)], [7], true⟩ := by
  have := C1_partial_open_unwind (fun p _ => if p = String.toList "a(x)" then 7 else 0)
    (fun _ => 0) (String.toList "a") [String.toList "x"] (String.toList "y") [] 0
    (by decide) (by decide) (by decide) (by decide) (by decide)
  simpa using this

/-- C2 counterexample: the claim's "opening invokes the native open exactly
N times" fails when a member open fails: opening `"libc.a(shr.o,shr_64.o)"`
(N = 2) with a native open that fails makes exactly one native open call,
not two. -/
theorem C2_counterexample :
    (ctypes_dlopen (fun _ _ => 0) (fun _ => 0)
        (String.toList "libc.a(shr.o,shr_64.o)") 0).opens =
      [(String.toList "libc.a(shr.o)", RTLD_MEMBER)] ∧
    ((ctypes_dlopen (fun _ _ => 0) (fun _ => 0)
        (String.toList "libc.a(shr.o,shr_64.o)") 0).opens).length ≠ 2 := by
  decide

/-- C2 amended: for a well-formed member path `fname(m1,...,mN)`, when every
member open succeeds, opening invokes the native open exactly N times, once
per member in list order, each call receiving the path with the
parenthesized segment rewritten to hold only that member name, and with the
member-mode flag ORed into the caller's mode (the loop stops early at the
first failing member, cf. the C1 unwind). -/
theorem C2_member_rewrite_opens (op : NativeOpen) (cl : NativeClose) (fname : List Char)
    (ms : List (List Char)) (mode : Nat) (hf : fname ≠ []) (hne : ms ≠ [])
    (hct : members_str ms ≠ [])
    (hwf : ∀ m ∈ ms, ',' ∉ m ∧ '(' ∉ m ∧ '/' ∉ m)
    (hok : ∀ m ∈ ms, op (fname ++ '(' :: m ++ [')']) (mode ||| RTLD_MEMBER) ≠ 0) :
    (ctypes_dlopen op cl (fname ++ '(' :: members_str ms ++ [')']) mode).opens =
      ms.map (fun m => (fname ++ '(' :: m ++ [')'], mode ||| RTLD_MEMBER)) := by
  have hcp : '(' ∉ members_str ms :=
    mem_members_str '(' ms (by decide) fun m hm => (hwf m hm).2.1
  have hcs : '/' ∉ members_str ms :=
    mem_members_str '/' ms (by decide) fun m hm => (hwf m hm).2.2
  rw [ctypes_dlopen_member op cl fname (members_str ms) mode hf hct hcp hcs]
  cases ms with
  | nil => exact absurd rfl hne
  | cons m ms' =>
      cases ms' with
      | nil =>
          have hnc : ',' ∉ members_str [m] := by
            simpa [members_str] using (hwf m (by simp)).1
          rw [if_neg hnc]
          simp [single_open, members_str]
      | cons m2 ms'' =>
          rw [if_pos (comma_mem_members_str m m2 ms'')]
          rw [multiple_open_composed op cl fname (m :: m2 :: ms'') (mode ||| RTLD_MEMBER)
            (by simp) fun x hx => (hwf x hx).1]
          have hok' : ∀ x ∈ m :: m2 :: ms'',
              op ((fname ++ ['(']) ++ x ++ [')']) (mode ||| RTLD_MEMBER) ≠ 0 := by
            intro x hx
            have := hok x hx
            simpa using this
          rw [open_members_success op (fname ++ ['(']) (mode ||| RTLD_MEMBER) _ hok']
          show (m :: m2 :: ms'').map
              (fun x => ((fname ++ ['(']) ++ x ++ [')'], mode ||| RTLD_MEMBER)) = _
          apply List.map_congr_left
          intro x _
          simp

/-- C2 witness: `"libc.a(shr.o,shr_64.o)"` with mode 5 and an
always-succeeding native open produces exactly the two native open calls
`"libc.a(shr.o)"` and `"libc.a(shr_64.o)"`, both with `RTLD_MEMBER` ORed
into the mode. -/
theorem C2_member_rewrite_opens_witness :
    (ctypes_dlopen (fun _ _ => 3) (fun _ => 0)
        (String.toList "libc.a" ++ '(' :: members_str [String.toList "shr.o",
          String.toList "shr_64.o"] ++ [')']) 5).opens =
      [String.toList "shr.o", String.toList "shr_64.o"].map
        (fun m => (String.toList "libc.a" ++ '(' :: m ++ [')'], 5 ||| RTLD_MEMBER)) :=
  C2_member_rewrite_opens (fun _ _ => 3) (fun _ => 0) (String.toList "libc.a")
    [String.toList "shr.o", String.toList "shr_64.o"] 5 (by decide) (by decide)
    (by decide) (by decide) (by decide)

/-- C9: a successful multi-member open of the members `ms` yields a Multiple
handle whose slot sequence is the opened native handles, in open order,
followed by a null terminator: there are exactly `ms.length` of them, all
non-null; aggregate close visits exactly those handles, and aggregate
lookup (when no probe matches or errors) also visits exactly those
handles. -/
theorem C9_aggregate_invariant (op : NativeOpen) (cl : NativeClose) (sym : NativeSym)
    (fname : List Char) (ms : List (List Char)) (mode : Nat) (s : List Char)
    (hne : ms ≠ []) (hcm : ∀ m ∈ ms, ',' ∉ m)
    (hok : ∀ m ∈ ms, op (fname ++ '(' :: m ++ [')']) mode ≠ 0) :
    (multiple_open op cl (fname ++ '(' :: members_str ms ++ [')'])
        (fname.length + 1) mode).handle =
      some (.multiple ((ms.map fun m => op (fname ++ '(' :: m ++ [')']) mode) ++ [0])) ∧
    (ms.map fun m => op (fname ++ '(' :: m ++ [')']) mode).length = ms.length ∧
    (∀ h ∈ ms.map fun m => op (fname ++ '(' :: m ++ [')']) mode, h ≠ 0) ∧
    (multiple_close cl
        (some ((ms.map fun m => op (fname ++ '(' :: m ++ [')']) mode) ++ [0]))).closed =
      ms.map (fun m => op (fname ++ '(' :: m ++ [')']) mode) ∧
    ((∀ h ∈ ms.map fun m => op (fname ++ '(' :: m ++ [')']) mode, sym h s 0 = (0, 0)) →
      (multiple_sym sym
          (some ((ms.map fun m => op (fname ++ '(' :: m ++ [')']) mode) ++ [0])) s 0).probed =
        ms.map (fun m => op (fname ++ '(' :: m ++ [')']) mode)) := by
  have hmapeq : ms.map (fun m => op ((fname ++ ['(']) ++ m ++ [')']) mode) =
      ms.map (fun m => op (fname ++ '(' :: m ++ [')']) mode) :=
    List.map_congr_left fun m _ => by simp
  have h0 : ∀ h ∈ ms.map fun m => op (fname ++ '(' :: m ++ [')']) mode, h ≠ 0 := by
    intro h hh
    rcases List.mem_map.mp hh with ⟨m, hm, rfl⟩
    exact hok m hm
  have hok' : ∀ m ∈ ms, op ((fname ++ ['(']) ++ m ++ [')']) mode ≠ 0 := by
    intro m hm
    have := hok m hm
    simpa using this
  refine ⟨?_, List.length_map ms _, h0, multiple_close_closed cl _ h0, ?_⟩
  · rw [multiple_open_composed op cl fname ms mode hne hcm,
      open_members_success op (fname ++ ['(']) mode ms hok']
    show some (LoaderHandle.multiple
      ((ms.map fun m => op ((fname ++ ['(']) ++ m ++ [')']) mode) ++ [0])) = _
    rw [hmapeq]
  · intro hsym
    rw [show multiple_sym sym
        (some ((ms.map fun m => op (fname ++ '(' :: m ++ [')']) mode) ++ [0])) s 0 =
        multiple_sym_go sym s
          ((ms.map fun m => op (fname ++ '(' :: m ++ [')']) mode) ++ [0]) 0 from rfl,
      multiple_sym_go_all_null sym s _ h0 hsym]

/-- C9 witness: opening `"a(x,y)"` with an always-3 native open yields the
Multiple handle over slots `[3, 3, 0]`; close visits `[3, 3]`, and a
no-match/no-error lookup probes `[3, 3]`. -/
theorem C9_aggregate_invariant_witness :
    (multiple_open (fun _ _ => 3) (fun _ => 0)
        (String.toList "a" ++ '(' :: members_str [String.toList "x", String.toList "y"]
          ++ [')']) ((String.toList "a").length + 1) 0).handle =
      some (.multiple [3, 3, 0]) ∧
    (multiple_close (fun _ => 0) (some [3, 3, 0])).closed = [3, 3] ∧
    (multiple_sym (fun _ _ e => (0, e)) (some [3, 3, 0]) (String.toList "s") 0).probed
        = [3, 3] := by
  have h := C9_aggregate_invariant (fun _ _ => 3) (fun _ => 0) (fun _ _ e => (0, e))
    (String.toList "a") [String.toList "x", String.toList "y"] 0 (String.toList "s")
    (by decide) (by decide) (by decide)
  refine ⟨?_, ?_, ?_⟩
  · simpa using h.1
  · simpa using h.2.2.2.1
  · have := h.2.2.2.2 (by decide)
    simpa using this

/-- C6 counterexample: `"x(,)"` fails the claim's "at least one non-empty
member segment" condition (both segments are empty), yet the code
recognizes member syntax and performs two member-mode native opens of
`"x()"` instead of treating the string as a literal path. -/
theorem C6_counterexample :
    recognized (String.toList "x(,)") = true ∧
    spec_recognized (String.toList "x(,)") = false ∧
    (ctypes_dlopen (fun _ _ => 5) (fun _ => 0) (String.toList "x(,)") 0).opens =
      [(String.toList "x()", RTLD_MEMBER), (String.toList "x()", RTLD_MEMBER)] := by
  decide

/-- C6 amended: member syntax is recognized iff the path decomposes as
`fname(content)` with the last character `)`, a non-empty filename before
the rightmost `(`, *non-empty content* between the parentheses (the
segments themselves may all be empty), and no path separator between the
parentheses; any string failing these conditions is dispatched as a literal
path, to a single native open with path and mode unmodified. -/
theorem C6_member_syntax_recognition (op : NativeOpen) (cl : NativeClose)
    (path : List Char) (mode : Nat) :
    (recognized path = true ↔
      ∃ fname content, path = fname ++ '(' :: content ++ [')'] ∧ fname ≠ [] ∧
        content ≠ [] ∧ '/' ∉ content ∧ '(' ∉ content) ∧
    (recognized path = false → ctypes_dlopen op cl path mode = single_open op path mode) := by
  constructor
  · constructor
    · intro hrec
      unfold recognized at hrec
      cases hrf : rfind_idx '(' path with
      | none => rw [hrf] at hrec; simp at hrec
      | some i =>
          rw [hrf] at hrec
          simp only [Bool.and_eq_true, decide_eq_true_eq] at hrec
          obtain ⟨h1, h2⟩ := hrec
          have h01 := h2.1
          obtain ⟨pre, suf, hpath, hlen, hnp⟩ := rfind_idx_some '(' path i hrf
          subst hpath
          have h21 := h2.2.1
          have hplen : (pre ++ '(' :: suf).length = pre.length + 1 + suf.length := by
            simp only [List.length_append, List.length_cons]
            omega
          have hsuf2 : 2 ≤ suf.length := by
            rw [hplen] at h21
            omega
          rcases suf.eq_nil_or_concat' with hnil | ⟨content, last, hconc⟩
          · subst hnil
            simp at hsuf2
          · subst hconc
            have hlastc : last = ')' := by
              have hgl : (pre ++ '(' :: (content ++ [last])).getLast? = some last := by
                rw [show pre ++ '(' :: (content ++ [last]) =
                  (pre ++ '(' :: content) ++ [last] by simp]
                exact List.getLast?_concat _
              rw [hgl] at h1
              exact Option.some.inj h1
            subst hlastc
            refine ⟨pre, content, by simp, ?_, ?_, ?_, ?_⟩
            · intro h
              subst h
              simp at hlen
              omega
            · intro h
              subst h
              simp at hsuf2
            · intro hmem
              have h3 := h2.2.2
              rw [← hlen, List.drop_left pre ('(' :: (content ++ [')']))] at h3
              exact h3 (by simp [hmem])
            · intro hmem
              exact hnp (by simp [hmem])
    · rintro ⟨fname, content, hpath, hf, hc, hcs, hcp⟩
      subst hpath
      exact recognized_composed fname content hf hc hcp hcs
  · intro hrec
    unfold ctypes_dlopen
    by_cases hlast : path.getLast? = some ')'
    · rw [if_pos hlast]
      cases hrf : rfind_idx '(' path with
      | none => rfl
      | some i =>
          have hcond : ¬(0 < i ∧ 2 < path.length - i ∧ '/' ∉ path.drop i) := by
            intro hcond
            have htrue : recognized path = true := by
              unfold recognized
              rw [hrf, decide_eq_true hlast, Bool.true_and]
              exact decide_eq_true hcond
            rw [htrue] at hrec
            exact Bool.noConfusion hrec
          show (if 0 < i ∧ 2 < path.length - i ∧ '/' ∉ path.drop i then
              if ',' ∈ path.drop i then
                multiple_open op cl path (i + 1) (mode ||| RTLD_MEMBER)
              else single_open op path (mode ||| RTLD_MEMBER)
            else single_open op path mode) = single_open op path mode
          rw [if_neg hcond]
    · rw [if_neg hlast]

/-- C6 witness: `"a(b)"` is recognized as member syntax, and `"ab"` (not
recognized) is opened as a literal path. -/
theorem C6_member_syntax_recognition_witness :
    recognized (String.toList "a(b)") = true ∧
    ctypes_dlopen (fun _ _ => 1) (fun _ => 0) (String.toList "ab") 0 =
      single_open (fun _ _ => 1) (String.toList "ab") 0 := by
  constructor
  · exact (C6_member_syntax_recognition (fun _ _ => 1) (fun _ => 0)
      (String.toList "a(b)") 0).1.mpr
      ⟨String.toList "a", String.toList "b", by decide, by decide, by decide,
        by decide, by decide⟩
  · exact (C6_member_syntax_recognition (fun _ _ => 1) (fun _ => 0)
      (String.toList "ab") 0).2 (by decide)

end DlfcnAix
